import Mathlib

/-!
Verification development for the AKI expert-review annotation app
(src/app.py) and its highlight-range model.

The offset-based highlight merge/normalize utility and the highlight
renderer are specified in the design document (sections 4.1 and 4.2) but the
repository itself only ships a browser-side DOM widget (an HTML string inside
`inline_highlighter`), so those two components are modelled from the spec's
algorithm descriptions.  All other definitions are shallow embeddings of the
Python functions in src/app.py: `_retry_gs`, `_build_intervals_hours`,
`_strip_strong_only` and `append_dict`.
-/

/-! ## Highlight ranges: data model (spec section 3) -/

/-- Modelled from the spec: a HighlightRange is a pair of integer character
offsets (start, end) into the SourceText.  Offsets are integers; out-of-range
values (including negative starts) are tolerated and clamped by the renderer. -/
structure HighlightRange where
  start : Int
  «end» : Int
deriving DecidableEq, Repr

/-- Modelled from the spec: a HighlightSet is normalized when every range has
start < end and consecutive ranges satisfy a.end < b.start (sorted, pairwise
disjoint, non-touching). -/
def Normalized (hs : List HighlightRange) : Prop :=
  (∀ r ∈ hs, r.start < r.«end») ∧
    List.Chain' (fun a b => a.«end» < b.start) hs

/-- Modelled from the spec: the sort order used by the merge utility, by
start ascending with ties broken by end ascending. -/
def leLex (a b : HighlightRange) : Prop :=
  a.start < b.start ∨ (a.start = b.start ∧ a.«end» ≤ b.«end»)

instance : DecidableRel leLex := fun a b =>
  inferInstanceAs (Decidable (_ ∨ _))

instance : IsTotal HighlightRange leLex :=
  ⟨fun a b => by
    unfold leLex
    rcases lt_trichotomy a.start b.start with h | h | h
    · exact Or.inl (Or.inl h)
    · rcases le_total a.«end» b.«end» with h2 | h2
      · exact Or.inl (Or.inr ⟨h, h2⟩)
      · exact Or.inr (Or.inr ⟨h.symm, h2⟩)
    · exact Or.inr (Or.inl h)⟩

instance : IsTrans HighlightRange leLex :=
  ⟨fun a b c hab hbc => by
    unfold leLex at *
    rcases hab with h1 | ⟨h1, h1e⟩ <;> rcases hbc with h2 | ⟨h2, h2e⟩
    · exact Or.inl (h1.trans h2)
    · exact Or.inl (h2 ▸ h1)
    · exact Or.inl (h1 ▸ h2)
    · exact Or.inr ⟨h1.trans h2, h1e.trans h2e⟩⟩

instance : IsAntisymm HighlightRange leLex :=
  ⟨fun a b hab hba => by
    unfold leLex at *
    rcases hab with h1 | ⟨h1, h1e⟩ <;> rcases hba with h2 | ⟨h2, h2e⟩
    · exact absurd (h1.trans h2) (lt_irrefl _)
    · exact absurd h1 (h2 ▸ lt_irrefl _)
    · exact absurd h2 (h1 ▸ lt_irrefl _)
    · cases a; cases b; simp only [HighlightRange.mk.injEq]
      exact ⟨h1, le_antisymm h1e h2e⟩⟩

/-- Modelled from the spec: sort all ranges by start ascending, ties broken by
end ascending (spec section 4.1). -/
def sortRanges (l : List HighlightRange) : List HighlightRange :=
  List.insertionSort leLex l

/-- Modelled from the spec: the left-to-right sweep of section 4.1.  It
maintains a current merged range; for each next range, if
next.start <= current.end (overlap or touching) it extends
current.end to max(current.end, next.end), otherwise it emits current and
starts a new one from next.  The final current range is emitted. -/
def sweep (cur : HighlightRange) : List HighlightRange → List HighlightRange
  | [] => [cur]
  | next :: rest =>
    if next.start ≤ cur.«end» then
      sweep ⟨cur.start, max cur.«end» next.«end»⟩ rest
    else
      cur :: sweep next rest

/-- Modelled from the spec: the range merge/normalize utility of section 4.1:
sort, then sweep.  Empty input gives empty output. -/
def mergeRanges (l : List HighlightRange) : List HighlightRange :=
  match sortRanges l with
  | [] => []
  | a :: rest => sweep a rest

/-! ## Highlight renderer (spec section 4.2) -/

/-- Modelled from the spec: each rendered segment is tagged plain or
highlighted. -/
inductive SegKind where
  | plain
  | highlighted
deriving DecidableEq, Repr

/-- Modelled from the spec: a rendered segment, a tag plus its text
(SourceText is modelled as a list of characters). -/
structure Segment where
  kind : SegKind
  text : List Char
deriving DecidableEq, Repr

/-- Modelled from the spec: clamp an offset to the interval [0, len] instead
of raising (spec section 4.2). -/
def clampI (len : Nat) (x : Int) : Int :=
  min (max x 0) (len : Int)

/-- Modelled from the spec: the clamped offset as a natural index. -/
def clampOff (len : Nat) (x : Int) : Nat :=
  (clampI len x).toNat

/-- Modelled from the spec: the slice SourceText[a:b] in Python slice
semantics. -/
def sliceChars (t : List Char) (a b : Nat) : List Char :=
  (t.drop a).take (b - a)

/-- Modelled from the spec: the renderer loop of section 4.2, walking the
HighlightSet with a cursor.  For each range it emits a plain segment for
SourceText[cursor:start] (skipped if empty), a highlighted segment for
SourceText[start:end], and advances the cursor to end; the trailing plain
segment is skipped if empty.  Offsets are clamped to [0, len]. -/
def renderGo (t : List Char) : Nat → List HighlightRange → List Segment
  | cursor, [] =>
    if t.drop cursor = [] then [] else [⟨SegKind.plain, t.drop cursor⟩]
  | cursor, r :: rs =>
    let s := clampOff t.length r.start
    let e := clampOff t.length r.«end»
    let pre := sliceChars t cursor s
    (if pre = [] then [] else [⟨SegKind.plain, pre⟩]) ++
      ⟨SegKind.highlighted, sliceChars t s e⟩ :: renderGo t e rs

/-- Modelled from the spec: the highlight renderer of section 4.2. -/
def renderHighlights (t : List Char) (hs : List HighlightRange) : List Segment :=
  renderGo t 0 hs

/-- Concatenation of the text of all rendered segments, in order. -/
def concatSegs (segs : List Segment) : List Char :=
  (segs.map Segment.text).flatten

/-- Duplicated list: every element repeated twice in place (proof device for
the idempotence claim). -/
def dupList : List HighlightRange → List HighlightRange
  | [] => []
  | r :: rest => r :: r :: dupList rest

/-- DupsFrom cur S L states that L is S with extra adjacent copies inserted,
where additional copies of cur may also appear at the front (proof device for
the idempotence claim: the sweep absorbs all such copies). -/
inductive DupsFrom : HighlightRange → List HighlightRange → List HighlightRange → Prop where
  | nil (cur : HighlightRange) : DupsFrom cur [] []
  | copy (cur : HighlightRange) (S L : List HighlightRange) :
      DupsFrom cur S L → DupsFrom cur S (cur :: L)
  | next (cur r : HighlightRange) (S L : List HighlightRange) :
      DupsFrom r S L → DupsFrom cur (r :: S) (r :: L)

/-- Scenario text of the spec test scenarios (the 36-character discharge
summary sentence). -/
def scenarioText : List Char :=
  ("The patient was afebrile and stable." : String).toList

/-- A 37-character SourceText for the clamping scenario of the spec. -/
def clampScenarioText : List Char :=
  ("The patient was afebrile and stable.." : String).toList

/-! ## Retry combinator (src/app.py, `_retry_gs`) -/

/-- Outcome of one call to the wrapped Google-Sheets function: either a
returned value or a raised transient APIError. -/
inductive GsOutcome (ε α : Type) where
  | ok (v : α)
  | apiErr (e : ε)
deriving Repr

/-- Observable trace of a `_retry_gs` run: the final result (`Except.error`
models the RuntimeError raised after repeated failures, carrying the last
APIError if any), the number of calls made, and the list of sleep durations
in order. -/
structure RetryTrace (ε α : Type) where
  result : Except (Option ε) α
  calls : Nat
  sleeps : List ℚ
deriving Repr

/-- Loop of `_retry_gs` (src/app.py lines 446-459): remaining tries, index of
the next call, current delay, and the last APIError seen.  On an APIError it
sleeps `delay`, multiplies the delay by `backoff`, and retries. -/
def _retry_gs_aux (f : Nat → GsOutcome ε α) (backoff : ℚ) :
    Nat → Nat → ℚ → Option ε → RetryTrace ε α
  | 0, _, _, last => ⟨Except.error last, 0, []⟩
  | t + 1, k, delay, last =>
    match f k with
    | GsOutcome.ok v => ⟨Except.ok v, 1, []⟩
    | GsOutcome.apiErr e =>
      let rest := _retry_gs_aux f backoff t (k + 1) (delay * backoff) (some e)
      ⟨rest.result, rest.calls + 1, delay :: rest.sleeps⟩

/-- Retry wrapper for Google Sheets calls (src/app.py `_retry_gs`): calls are
indexed 0, 1, ... and `f` gives the outcome of each call. -/
def _retry_gs (f : Nat → GsOutcome ε α) (tries : Nat) (delay backoff : ℚ) :
    RetryTrace ε α :=
  _retry_gs_aux f backoff tries 0 delay none

/-- Geometric delay sequence: [d, d*b, d*b^2, ...] of the given length. -/
def geoList (d b : ℚ) : Nat → List ℚ
  | 0 => []
  | n + 1 => d :: geoList (d * b) b n

/-- Concrete call-outcome function for exercising `_retry_gs`: the first two
calls raise APIError 0 and 1, the third succeeds. -/
def retryDemoCalls : Nat → GsOutcome Nat String := fun j =>
  if j < 2 then GsOutcome.apiErr j else GsOutcome.ok ("done" : String)

/-! ## Interval builder (src/app.py, `_build_intervals_hours`) -/

/-- One ED/ICU band of `_build_intervals_hours` before clipping. -/
def rawBand (a horizon : ℚ) (sTs eTs : Option ℚ) (lbl : String) :
    List (String × ℚ × ℚ) :=
  match (sTs.map (fun ts => ts - a)) with
  | none => []
  | some s =>
    let e := (eTs.map (fun ts => ts - a)).getD horizon
    if e < s then [(lbl, e, s)] else [(lbl, s, e)]

/-- Clip one raw band to [0, horizon], keeping only positive-length ranges
(src/app.py lines 113-119). -/
def clipBand (horizon : ℚ) (iv : String × ℚ × ℚ) : Option (String × ℚ × ℚ) :=
  let s2 := max 0 iv.2.1
  let e2 := min horizon iv.2.2
  if s2 < e2 then some (iv.1, s2, e2) else none

/-- Shallow embedding of `_build_intervals_hours` (src/app.py lines 80-121).
Timestamps are modelled as optional rationals measured in hours (a missing
value models NaT); the result pairs the list of labelled clipped intervals
with the optional horizon. -/
def _build_intervals_hours (admit_ts disch_ts edreg edout icuIn icuOut : Option ℚ) :
    List (String × ℚ × ℚ) × Option ℚ :=
  match admit_ts, disch_ts with
  | some a, some d =>
    if d < a then ([], none)
    else
      let horizon := d - a
      let raw := rawBand a horizon edreg edout ("ED" : String) ++
        rawBand a horizon icuIn icuOut ("ICU" : String)
      (raw.filterMap (clipBand horizon), some horizon)
  | _, _ => ([], none)

/-! ## Strong-tag stripper (src/app.py, `_strip_strong_only`) -/

/-- Character class of the Python regex class backslash-s (whitespace) over
Unicode strings. -/
def pySpaceCodes : List Nat :=
  [9, 10, 11, 12, 13, 28, 29, 30, 31, 32, 133, 160, 5760,
   8192, 8193, 8194, 8195, 8196, 8197, 8198, 8199, 8200, 8201, 8202,
   8232, 8233, 8239, 8287, 12288]

/-- Whether a character is whitespace for the Python regex class
backslash-s. -/
def isPySpace (c : Char) : Bool :=
  pySpaceCodes.contains c.toNat

/-- Drop leading regex whitespace (the greedy backslash-s-star). -/
def dropSpaces (l : List Char) : List Char :=
  l.dropWhile (fun c => isPySpace c)

/-- Match a literal word case-insensitively (re.IGNORECASE, ASCII case
folding) and return the rest of the input on success. -/
def eatLit : List Char → List Char → Option (List Char)
  | [], l => some l
  | _ :: _, [] => none
  | p :: ps, c :: cs => if c.toLower = p then eatLit ps cs else none

/-- Match the tag-name alternation (strong or b) case-insensitively. -/
def eatName (l : List Char) : Option (List Char) :=
  match eatLit (("strong" : String).toList) l with
  | some r => some r
  | none => eatLit (("b" : String).toList) l

/-- Deterministic matcher for the closing-tag regex of `_strip_strong_only`
(src/app.py line 129): an angle bracket, optional spaces, a slash, optional
spaces, the name strong or b, optional spaces, a closing angle bracket.
Returns the remaining input after the match. -/
def matchClose : List Char → Option (List Char)
  | [] => none
  | c :: rest =>
    if c = '<' then
      match dropSpaces rest with
      | [] => none
      | c2 :: r2 =>
        if c2 = '/' then
          match eatName (dropSpaces r2) with
          | none => none
          | some r4 =>
            match dropSpaces r4 with
            | [] => none
            | c3 :: r5 => if c3 = '>' then some r5 else none
        else none
    else none

/-- Deterministic matcher for the opening-tag regex of `_strip_strong_only`
(src/app.py line 130): an angle bracket, optional spaces, the name strong or
b, an optional attribute group (at least one space then any characters other
than a closing angle bracket), then a closing angle bracket. -/
def matchOpen : List Char → Option (List Char)
  | [] => none
  | c :: rest =>
    if c = '<' then
      match eatName (dropSpaces rest) with
      | none => none
      | some r2 =>
        match r2 with
        | [] => none
        | c2 :: cs =>
          if c2 = '>' then some cs
          else if isPySpace c2 then
            match (c2 :: cs).dropWhile (fun ch => ch ≠ '>') with
            | [] => none
            | _ :: r5 => some r5
          else none
    else none

/-- Fuel-bounded left-to-right non-overlapping removal of closing tags,
replicating re.sub: at each position, if the closing-tag regex matches,
drop the match and continue after it, otherwise keep the character.  Each
match consumes at least one character, so fuel equal to the input length
always suffices. -/
def stripCloseGo : Nat → List Char → List Char
  | 0, l => l
  | _, [] => []
  | fuel + 1, c :: rest =>
    match matchClose (c :: rest) with
    | some r => stripCloseGo fuel r
    | none => c :: stripCloseGo fuel rest

/-- First re.sub pass of `_strip_strong_only`: remove closing tags. -/
def stripClose (l : List Char) : List Char :=
  stripCloseGo l.length l

/-- Fuel-bounded left-to-right non-overlapping removal of opening tags,
replicating re.sub for the opening-tag regex. -/
def stripOpenGo : Nat → List Char → List Char
  | 0, l => l
  | _, [] => []
  | fuel + 1, c :: rest =>
    match matchOpen (c :: rest) with
    | some r => stripOpenGo fuel r
    | none => c :: stripOpenGo fuel rest

/-- Second re.sub pass of `_strip_strong_only`: remove opening tags. -/
def stripOpen (l : List Char) : List Char :=
  stripOpenGo l.length l

/-- Core of `_strip_strong_only` on character lists: closing tags are removed
first, then opening tags (src/app.py lines 124-131). -/
def stripStrongOnlyList (l : List Char) : List Char :=
  stripOpen (stripClose l)

/-- Shallow embedding of `_strip_strong_only` (src/app.py lines 124-131).
The argument `none` models a non-string input, which returns the empty
string. -/
def _strip_strong_only : Option String → String
  | none => ""
  | some s => String.mk (stripStrongOnlyList s.toList)

/-- Claim-side one-pass tag removal, following the claim's words: scan left
to right and delete every substring that is genuinely an opening or closing
strong/b tag of the input, leaving every other character unchanged. -/
def stripTagsOnePassGo : Nat → List Char → List Char
  | 0, l => l
  | _, [] => []
  | fuel + 1, c :: rest =>
    match matchClose (c :: rest) with
    | some r => stripTagsOnePassGo fuel r
    | none =>
      match matchOpen (c :: rest) with
      | some r => stripTagsOnePassGo fuel r
      | none => c :: stripTagsOnePassGo fuel rest

/-- Claim-side one-pass tag removal on strings. -/
def stripTagsOnePass (s : String) : String :=
  String.mk (stripTagsOnePassGo s.toList.length s.toList)

/-! ## Worksheet append (src/app.py, `append_dict`) -/

/-- Minimal worksheet model: a list of rows, each a list of cell strings; row
1 is the header row. -/
structure Worksheet where
  rows : List (List String)
deriving DecidableEq, Repr

/-- Row values of the 1-indexed row `i` (gspread `row_values`). -/
def row_values (ws : Worksheet) (i : Nat) : List String :=
  ws.rows.getD (i - 1) []

/-- Append a row at the bottom of the worksheet (gspread `append_row`). -/
def append_row (ws : Worksheet) (row : List String) : Worksheet :=
  ⟨ws.rows ++ [row]⟩

/-- Shallow embedding of `append_dict` (src/app.py lines 557-561).  The
dictionary is modelled as a lookup function from keys to optional values;
when `headers` is `none` the worksheet's own header row is used. -/
def append_dict (ws : Worksheet) (d : String → Option String)
    (headers : Option (List String)) : Worksheet :=
  let hs := match headers with
    | none => row_values ws 1
    | some h => h
  append_row ws (hs.map (fun h => (d h).getD ""))

/-- Concrete header row for exercising `append_dict`. -/
def demoHeaders : List String :=
  ["case_id", "step", "aki"]

/-- Concrete dictionary for exercising `append_dict`; the key named extra is
not among the headers. -/
def demoDict : String → Option String := fun k =>
  if k = "case_id" then some ("c1")
  else if k = "aki" then some ("Yes")
  else if k = "extra" then some ("dropme")
  else none

/-- The same dictionary as `demoDict` but without the extra key. -/
def demoDict2 : String → Option String := fun k =>
  if k = "case_id" then some ("c1")
  else if k = "aki" then some ("Yes")
  else none

/-- Concrete worksheet whose first row is the header row. -/
def demoWs : Worksheet :=
  ⟨[demoHeaders]⟩

/-! ## Theorems: renderer content preservation (C1) -/

theorem concatSegs_nil : concatSegs [] = [] := rfl

theorem concatSegs_cons (s : Segment) (l : List Segment) :
    concatSegs (s :: l) = s.text ++ concatSegs l := rfl

theorem concatSegs_append (l₁ l₂ : List Segment) :
    concatSegs (l₁ ++ l₂) = concatSegs l₁ ++ concatSegs l₂ := by
  simp [concatSegs]

theorem clampOff_mono {len : Nat} {x y : Int} (h : x ≤ y) :
    clampOff len x ≤ clampOff len y := by
  unfold clampOff clampI
  have : min (max x 0) (len : Int) ≤ min (max y 0) (len : Int) := by omega
  omega

theorem sliceChars_append (t : List Char) {a b : Nat} (h : a ≤ b) :
    sliceChars t a b ++ t.drop b = t.drop a := by
  unfold sliceChars
  have hd : t.drop b = (t.drop a).drop (b - a) := by
    rw [List.drop_drop]
    congr 1
    omega
  rw [hd, List.take_append_drop]

theorem renderGo_concat (t : List Char) :
    ∀ (hs : List HighlightRange) (cursor : Nat),
      (∀ r ∈ hs, r.start < r.«end») →
      List.Chain' (fun a b => a.«end» < b.start) hs →
      (∀ r, hs.head? = some r → cursor ≤ clampOff t.length r.start) →
      concatSegs (renderGo t cursor hs) = t.drop cursor := by
  intro hs
  induction hs with
  | nil =>
    intro cursor _ _ _
    simp only [renderGo]
    split
    · simp [concatSegs, *]
    · simp [concatSegs]
  | cons r rs ih =>
    intro cursor helem hchain hhead
    have hse : clampOff t.length r.start ≤ clampOff t.length r.«end» :=
      clampOff_mono (le_of_lt (helem r (List.mem_cons_self r rs)))
    have hcs : cursor ≤ clampOff t.length r.start :=
      hhead r rfl
    have hchain' := (List.chain'_cons'.mp hchain)
    have ihrs : concatSegs (renderGo t (clampOff t.length r.«end») rs) =
        t.drop (clampOff t.length r.«end») := by
      apply ih
      · intro x hx
        exact helem x (List.mem_cons_of_mem r hx)
      · exact hchain'.2
      · intro r' hr'
        have hrel : r.«end» < r'.start := hchain'.1 r' hr'
        exact clampOff_mono (le_of_lt hrel)
    simp only [renderGo, concatSegs_append, concatSegs_cons]
    split
    · rename_i hpre
      rw [concatSegs_nil, List.nil_append, ihrs, sliceChars_append t hse]
      have h2 := sliceChars_append t hcs
      rw [hpre, List.nil_append] at h2
      exact h2
    · simp only [concatSegs_cons, concatSegs_nil, List.append_nil]
      rw [ihrs, sliceChars_append t hse, sliceChars_append t hcs]

/-- C1: for every SourceText string and every normalized HighlightSet, the
renderer produces an ordered list of segments, each tagged plain or
highlighted, such that concatenating the text of all segments, in order,
equals SourceText exactly, character for character. -/
theorem render_concat_eq_source (t : List Char) (hs : List HighlightRange)
    (h : Normalized hs) : concatSegs (renderHighlights t hs) = t := by
  have := renderGo_concat t hs 0 h.1 h.2 (fun r _ => Nat.zero_le _)
  simpa [renderHighlights] using this

theorem render_concat_eq_source_witness :
    Normalized [⟨4, 11⟩] ∧
      concatSegs (renderHighlights scenarioText [⟨4, 11⟩]) = scenarioText :=
  ⟨⟨by decide, by simp⟩,
    render_concat_eq_source scenarioText [⟨4, 11⟩] ⟨by decide, by simp⟩⟩

/-! ## Theorems: merge invariants (C2, C4, C6) -/

theorem sweep_head :
    ∀ (l : List HighlightRange) (cur : HighlightRange),
      ∃ e rest', sweep cur l = HighlightRange.mk cur.start e :: rest' := by
  intro l
  induction l with
  | nil =>
    intro cur
    exact ⟨cur.«end», [], rfl⟩
  | cons next rest ih =>
    intro cur
    by_cases h : next.start ≤ cur.«end»
    · obtain ⟨e, rest', hr⟩ := ih ⟨cur.start, max cur.«end» next.«end»⟩
      exact ⟨e, rest', by rw [sweep, if_pos h]; exact hr⟩
    · exact ⟨cur.«end», sweep next rest, by rw [sweep, if_neg h]⟩

theorem sweep_elem :
    ∀ (l : List HighlightRange) (cur : HighlightRange),
      cur.start < cur.«end» → (∀ r ∈ l, r.start < r.«end») →
      ∀ x ∈ sweep cur l, x.start < x.«end» := by
  intro l
  induction l with
  | nil =>
    intro cur hc _ x hx
    rw [sweep] at hx
    simp only [List.mem_singleton] at hx
    exact hx ▸ hc
  | cons next rest ih =>
    intro cur hc hl x hx
    by_cases h : next.start ≤ cur.«end»
    · rw [sweep, if_pos h] at hx
      refine ih ⟨cur.start, max cur.«end» next.«end»⟩ ?_ ?_ x hx
      · exact lt_of_lt_of_le hc (le_max_left _ _)
      · intro r hr
        exact hl r (List.mem_cons_of_mem next hr)
    · rw [sweep, if_neg h] at hx
      rcases List.mem_cons.mp hx with hx | hx
      · exact hx ▸ hc
      · exact ih next (hl next (List.mem_cons_self next rest))
          (fun r hr => hl r (List.mem_cons_of_mem next hr)) x hx

theorem sweep_chain :
    ∀ (l : List HighlightRange) (cur : HighlightRange),
      List.Chain' (fun a b => a.«end» < b.start) (sweep cur l) := by
  intro l
  induction l with
  | nil =>
    intro cur
    rw [sweep]
    exact List.chain'_singleton cur
  | cons next rest ih =>
    intro cur
    by_cases h : next.start ≤ cur.«end»
    · rw [sweep, if_pos h]
      exact ih _
    · rw [sweep, if_neg h]
      refine List.chain'_cons'.mpr ⟨?_, ih next⟩
      intro y hy
      obtain ⟨e, rest', hr⟩ := sweep_head rest next
      rw [hr] at hy
      simp only [List.head?_cons, Option.mem_def, Option.some.injEq] at hy
      rw [← hy]
      exact not_le.mp h

theorem chainEnd_to_chainStart :
    ∀ (l : List HighlightRange), (∀ x ∈ l, x.start < x.«end») →
      List.Chain' (fun a b => a.«end» < b.start) l →
      List.Chain' (fun a b => a.start < b.start) l := by
  intro l
  induction l with
  | nil => intro _ _; exact List.chain'_nil
  | cons a l ih =>
    intro helem hchain
    have h' := List.chain'_cons'.mp hchain
    refine List.chain'_cons'.mpr ⟨?_, ih (fun x hx => helem x (List.mem_cons_of_mem a hx)) h'.2⟩
    intro y hy
    exact lt_trans (helem a (List.mem_cons_self a l)) (h'.1 y hy)

/-- C2: for every input collection of ranges each satisfying start < end, the
output of the merge operation is sorted by start and pairwise disjoint and
non-touching: consecutive output ranges satisfy a.end < b.start. -/
theorem merge_sorted_disjoint (l : List HighlightRange)
    (h : ∀ r ∈ l, r.start < r.«end») :
    List.Chain' (fun a b => a.start < b.start) (mergeRanges l) ∧
      List.Chain' (fun a b => a.«end» < b.start) (mergeRanges l) := by
  have hmem : ∀ r ∈ sortRanges l, r.start < r.«end» := by
    intro r hr
    exact h r ((List.perm_insertionSort leLex l).mem_iff.mp hr)
  unfold mergeRanges
  cases hs : sortRanges l with
  | nil => exact ⟨List.chain'_nil, List.chain'_nil⟩
  | cons a rest =>
    rw [hs] at hmem
    have ha : a.start < a.«end» := hmem a (List.mem_cons_self a rest)
    have hrest : ∀ r ∈ rest, r.start < r.«end» :=
      fun r hr => hmem r (List.mem_cons_of_mem a hr)
    have hend := sweep_chain rest a
    have helem := sweep_elem rest a ha hrest
    exact ⟨chainEnd_to_chainStart _ helem hend, hend⟩

theorem merge_sorted_disjoint_witness :
    (∀ r ∈ ([⟨5, 9⟩, ⟨0, 3⟩, ⟨2, 6⟩] : List HighlightRange), r.start < r.«end») ∧
      (List.Chain' (fun a b => a.start < b.start)
          (mergeRanges [⟨5, 9⟩, ⟨0, 3⟩, ⟨2, 6⟩]) ∧
        List.Chain' (fun a b => a.«end» < b.start)
          (mergeRanges [⟨5, 9⟩, ⟨0, 3⟩, ⟨2, 6⟩])) :=
  ⟨by decide, merge_sorted_disjoint [⟨5, 9⟩, ⟨0, 3⟩, ⟨2, 6⟩] (by decide)⟩

/-- C4: touching ranges merge into one: ranges (0,3) and (3,7) merge to the
single range (0,7); and in general, during the sweep, whenever
next.start <= current.end the current range is extended to
max(current.end, next.end) rather than a new range being emitted. -/
theorem merge_touching :
    mergeRanges [⟨0, 3⟩, ⟨3, 7⟩] = [⟨0, 7⟩] ∧
      ∀ (cur next : HighlightRange) (rest : List HighlightRange),
        next.start ≤ cur.«end» →
        sweep cur (next :: rest) = sweep ⟨cur.start, max cur.«end» next.«end»⟩ rest :=
  ⟨by decide, fun cur next rest h => by rw [sweep, if_pos h]⟩

theorem merge_touching_witness :
    ((3 : Int) ≤ 3) ∧
      sweep ⟨0, 3⟩ [⟨3, 7⟩] = sweep ⟨0, max 3 7⟩ [] :=
  ⟨by decide, merge_touching.2 ⟨0, 3⟩ ⟨3, 7⟩ [] (by decide)⟩

/-- C6: the merge operation is order-invariant: merging the same multiset of
ranges in any input order yields the same final normalized HighlightSet. -/
theorem merge_order_invariant (l₁ l₂ : List HighlightRange) (h : l₁.Perm l₂) :
    mergeRanges l₁ = mergeRanges l₂ := by
  have hs : sortRanges l₁ = sortRanges l₂ := by
    apply List.eq_of_perm_of_sorted
      (((List.perm_insertionSort leLex l₁).trans h).trans
        (List.perm_insertionSort leLex l₂).symm)
      (List.sorted_insertionSort leLex l₁)
      (List.sorted_insertionSort leLex l₂)
  unfold mergeRanges
  rw [hs]

theorem merge_order_invariant_witness :
    ([⟨0, 3⟩, ⟨5, 9⟩] : List HighlightRange).Perm [⟨5, 9⟩, ⟨0, 3⟩] ∧
      mergeRanges [⟨0, 3⟩, ⟨5, 9⟩] = mergeRanges [⟨5, 9⟩, ⟨0, 3⟩] :=
  ⟨by decide, merge_order_invariant [⟨0, 3⟩, ⟨5, 9⟩] [⟨5, 9⟩, ⟨0, 3⟩] (by decide)⟩

/-! ## Theorems: merge idempotence (C3) -/

theorem chain_all_lt :
    ∀ (l : List HighlightRange) (a : HighlightRange),
      (∀ r ∈ l, r.start < r.«end») →
      List.Chain' (fun x y => x.«end» < y.start) (a :: l) →
      ∀ b ∈ l, a.«end» < b.start := by
  intro l
  induction l with
  | nil => intro a _ _ b hb; exact absurd hb (List.not_mem_nil b)
  | cons c l ih =>
    intro a helem hchain b hb
    have hac : a.«end» < c.start := (List.chain'_cons.mp hchain).1
    rcases List.mem_cons.mp hb with hb | hb
    · exact hb ▸ hac
    · have hcb : c.«end» < b.start :=
        ih c (fun r hr => helem r (List.mem_cons_of_mem c hr))
          (List.chain'_cons.mp hchain).2 b hb
      have hc : c.start < c.«end» := helem c (List.mem_cons_self c l)
      exact lt_trans hac (lt_trans hc hcb)

theorem normalized_pairwise_startlt (S : List HighlightRange) (h : Normalized S) :
    List.Pairwise (fun a b => a.start < b.start) S := by
  obtain ⟨helem, hchain⟩ := h
  induction S with
  | nil => exact List.Pairwise.nil
  | cons a T ih =>
    refine List.Pairwise.cons ?_ ?_
    · intro b hb
      have hab : a.«end» < b.start :=
        chain_all_lt T a (fun r hr => helem r (List.mem_cons_of_mem a hr)) hchain b hb
      exact lt_trans (helem a (List.mem_cons_self a T)) hab
    · exact ih (fun r hr => helem r (List.mem_cons_of_mem a hr))
        (List.chain'_cons'.mp hchain).2

theorem normalized_sorted (S : List HighlightRange) (h : Normalized S) :
    List.Sorted leLex S :=
  (normalized_pairwise_startlt S h).imp (fun hab => Or.inl hab)

theorem mem_dupList {x : HighlightRange} :
    ∀ {S : List HighlightRange}, x ∈ dupList S ↔ x ∈ S := by
  intro S
  induction S with
  | nil => simp [dupList]
  | cons r T ih => simp [dupList, ih]

theorem sorted_dupList (S : List HighlightRange) (h : Normalized S) :
    List.Sorted leLex (dupList S) := by
  induction S with
  | nil => exact List.sorted_nil
  | cons r T ih =>
    have helem := h.1
    have hchain := h.2
    have hT : Normalized T :=
      ⟨fun x hx => helem x (List.mem_cons_of_mem r hx),
        (List.chain'_cons'.mp hchain).2⟩
    have hrb : ∀ b ∈ dupList T, leLex r b := by
      intro b hb
      have hb' : b ∈ T := mem_dupList.mp hb
      have : r.«end» < b.start :=
        chain_all_lt T r hT.1 hchain b hb'
      exact Or.inl (lt_trans (helem r (List.mem_cons_self r T)) this)
    rw [dupList]
    refine List.Pairwise.cons ?_ (List.Pairwise.cons hrb (ih hT))
    intro b hb
    rcases List.mem_cons.mp hb with hb | hb
    · exact hb ▸ Or.inr ⟨rfl, le_refl _⟩
    · exact hrb b hb

theorem perm_dupList : ∀ S : List HighlightRange, (dupList S).Perm (S ++ S) := by
  intro S
  induction S with
  | nil => simp [dupList]
  | cons r T ih =>
    rw [dupList]
    have h1 : (r :: r :: dupList T).Perm (r :: r :: (T ++ T)) := ((ih).cons r).cons r
    have h2 : (r :: (T ++ r :: T)).Perm (r :: r :: (T ++ T)) :=
      (List.perm_middle).cons r
    exact h1.trans h2.symm

theorem dupsFrom_refl : ∀ (S : List HighlightRange) (r : HighlightRange),
    DupsFrom r S S := by
  intro S
  induction S with
  | nil => intro r; exact DupsFrom.nil r
  | cons s T ih => intro r; exact DupsFrom.next r s T T (ih s)

theorem dupsFrom_dupList : ∀ (S : List HighlightRange) (r : HighlightRange),
    DupsFrom r S (dupList S) := by
  intro S
  induction S with
  | nil => intro r; exact DupsFrom.nil r
  | cons s T ih =>
    intro r
    rw [dupList]
    exact DupsFrom.next r s T (s :: dupList T) (DupsFrom.copy s T (dupList T) (ih s))

theorem dupsFrom_insert :
    ∀ (A : List HighlightRange) (B : List HighlightRange) (r cur : HighlightRange),
      DupsFrom cur (A ++ r :: B) (A ++ r :: r :: B) := by
  intro A
  induction A with
  | nil =>
    intro B r cur
    exact DupsFrom.next cur r B (r :: B) (DupsFrom.copy r B B (dupsFrom_refl B r))
  | cons a A ih =>
    intro B r cur
    exact DupsFrom.next cur a (A ++ r :: B) (A ++ r :: r :: B) (ih B r a)

theorem sweep_dups {cur : HighlightRange} {S L : List HighlightRange}
    (h : DupsFrom cur S L) :
    cur.start < cur.«end» → (∀ x ∈ S, x.start < x.«end») →
    List.Chain' (fun a b => a.«end» < b.start) (cur :: S) →
    sweep cur L = cur :: S := by
  induction h with
  | nil c =>
    intro _ _ _
    rfl
  | copy c S L hd ih =>
    intro h1 h2 h3
    rw [sweep, if_pos (le_of_lt h1)]
    have heq : (⟨c.start, max c.«end» c.«end»⟩ : HighlightRange) = c := by
      rw [max_self]
    rw [heq]
    exact ih h1 h2 h3
  | next c r S L hd ih =>
    intro h1 h2 h3
    have hcr : c.«end» < r.start := (List.chain'_cons.mp h3).1
    rw [sweep, if_neg (not_le.mpr hcr)]
    have hr : r.start < r.«end» := h2 r (List.mem_cons_self r S)
    rw [ih hr (fun x hx => h2 x (List.mem_cons_of_mem r hx))
      (List.chain'_cons.mp h3).2]

theorem sortRanges_eq_of_sorted (l M : List HighlightRange)
    (hperm : l.Perm M) (hM : List.Sorted leLex M) : sortRanges l = M :=
  List.eq_of_perm_of_sorted ((List.perm_insertionSort leLex l).trans hperm)
    (List.sorted_insertionSort leLex l) hM

theorem sorted_insert_dup (A B : List HighlightRange) (r : HighlightRange)
    (h : Normalized (A ++ r :: B)) :
    List.Sorted leLex (A ++ r :: r :: B) := by
  have hsorted : List.Pairwise leLex (A ++ r :: B) :=
    normalized_sorted (A ++ r :: B) h
  rw [List.pairwise_append] at hsorted
  obtain ⟨hA, hrB, hcross⟩ := hsorted
  rw [List.pairwise_cons] at hrB
  obtain ⟨hrAll, hB⟩ := hrB
  show List.Pairwise leLex (A ++ r :: r :: B)
  rw [List.pairwise_append]
  refine ⟨hA, ?_, ?_⟩
  · refine List.Pairwise.cons ?_ (List.Pairwise.cons hrAll hB)
    intro b hb
    rcases List.mem_cons.mp hb with hb | hb
    · exact hb ▸ Or.inr ⟨rfl, le_refl _⟩
    · exact hrAll b hb
  · intro a ha b hb
    rcases List.mem_cons.mp hb with hb | hb
    · exact hb ▸ hcross a ha r (List.mem_cons_self r B)
    · exact hcross a ha b hb

/-- C3: the merge operation is idempotent: for every already-normalized
HighlightSet S, merging S with itself yields exactly S, and adding a range
identical to one already in S also yields exactly S (no duplicate growth). -/
theorem merge_idempotent (S : List HighlightRange) (h : Normalized S) :
    mergeRanges (S ++ S) = S ∧ ∀ r ∈ S, mergeRanges (S ++ [r]) = S := by
  constructor
  · have hsort : sortRanges (S ++ S) = dupList S :=
      sortRanges_eq_of_sorted (S ++ S) (dupList S) (perm_dupList S).symm
        (sorted_dupList S h)
    unfold mergeRanges
    rw [hsort]
    cases S with
    | nil => rfl
    | cons r T =>
      rw [dupList]
      exact sweep_dups
        (DupsFrom.copy r T (dupList T) (dupsFrom_dupList T r))
        (h.1 r (List.mem_cons_self r T))
        (fun x hx => h.1 x (List.mem_cons_of_mem r hx)) h.2
  · intro r hr
    obtain ⟨A, B, hS⟩ := List.append_of_mem hr
    subst hS
    have hperm : ((A ++ r :: B) ++ [r]).Perm (A ++ r :: r :: B) := by
      have h1 : ((A ++ r :: B) ++ [r]).Perm (r :: ((A ++ r :: B) ++ [])) :=
        List.perm_middle
      have h2 : (A ++ r :: (r :: B)).Perm (r :: (A ++ r :: B)) :=
        List.perm_middle
      rw [List.append_nil] at h1
      exact h1.trans h2.symm
    have hsort : sortRanges ((A ++ r :: B) ++ [r]) = A ++ r :: r :: B :=
      sortRanges_eq_of_sorted _ _ hperm (sorted_insert_dup A B r h)
    unfold mergeRanges
    rw [hsort]
    cases A with
    | nil =>
      show sweep r (r :: B) = r :: B
      exact sweep_dups
        (DupsFrom.copy r B B (dupsFrom_refl B r))
        (h.1 r (List.mem_cons_self r B))
        (fun x hx => h.1 x (List.mem_cons_of_mem r hx))
        h.2
    | cons a A' =>
      show sweep a (A' ++ r :: r :: B) = a :: (A' ++ r :: B)
      exact sweep_dups (dupsFrom_insert A' B r a)
        (h.1 a (List.mem_cons_self a _))
        (fun x hx => h.1 x (List.mem_cons_of_mem a hx)) h.2

theorem merge_idempotent_witness :
    Normalized [⟨0, 3⟩, ⟨5, 9⟩] ∧
      mergeRanges ([⟨0, 3⟩, ⟨5, 9⟩] ++ [⟨0, 3⟩, ⟨5, 9⟩]) = [⟨0, 3⟩, ⟨5, 9⟩] ∧
      mergeRanges ([⟨0, 3⟩, ⟨5, 9⟩] ++ [⟨5, 9⟩]) = [⟨0, 3⟩, ⟨5, 9⟩] :=
  ⟨⟨by decide, by simp⟩,
    (merge_idempotent [⟨0, 3⟩, ⟨5, 9⟩] ⟨by decide, by simp⟩).1,
    (merge_idempotent [⟨0, 3⟩, ⟨5, 9⟩] ⟨by decide, by simp⟩).2 ⟨5, 9⟩ (by decide)⟩

/-! ## Theorems: clamping of out-of-range offsets (C5) -/

/-- C5: for every SourceText and offset, out-of-range offsets (beyond the
text length, or negative) are clamped to the interval [0, length] and the
renderer is a total function (never raises); in particular the range
(100, 120) over a 37-character SourceText clamps to (37, 37) and renders as
an empty highlighted segment with no visible effect: the rendered text is
the SourceText unchanged. -/
theorem clamp_render_safe :
    (∀ (len : Nat) (x : Int),
      0 ≤ clampI len x ∧ clampI len x ≤ (len : Int)) ∧
    clampScenarioText.length = 37 ∧
    clampOff clampScenarioText.length 100 = 37 ∧
    clampOff clampScenarioText.length 120 = 37 ∧
    clampOff clampScenarioText.length (-5) = 0 ∧
    renderHighlights clampScenarioText [⟨100, 120⟩] =
      [⟨SegKind.plain, clampScenarioText⟩, ⟨SegKind.highlighted, []⟩] ∧
    concatSegs (renderHighlights clampScenarioText [⟨100, 120⟩]) =
      clampScenarioText :=
  ⟨fun len x => by unfold clampI; omega,
    by decide, by decide, by decide, by decide, by decide, by decide⟩

/-! ## Theorems: bounded retry with backoff (C7) -/

theorem _retry_gs_aux_step {ε α : Type} (f : Nat → GsOutcome ε α) (b : ℚ)
    (t k0 : Nat) (d : ℚ) (last : Option ε) (e : ε)
    (h : f k0 = GsOutcome.apiErr e) :
    _retry_gs_aux f b (t + 1) k0 d last =
      ⟨(_retry_gs_aux f b t (k0 + 1) (d * b) (some e)).result,
        (_retry_gs_aux f b t (k0 + 1) (d * b) (some e)).calls + 1,
        d :: (_retry_gs_aux f b t (k0 + 1) (d * b) (some e)).sleeps⟩ := by
  rw [_retry_gs_aux, h]

theorem _retry_gs_aux_success {ε α : Type} (f : Nat → GsOutcome ε α) (b : ℚ)
    (v : α) :
    ∀ (k t k0 : Nat) (d : ℚ) (last : Option ε), k < t →
      (∀ j, j < k → ∃ e, f (k0 + j) = GsOutcome.apiErr e) →
      f (k0 + k) = GsOutcome.ok v →
      _retry_gs_aux f b t k0 d last =
        ⟨Except.ok v, k + 1, geoList d b k⟩ := by
  intro k
  induction k with
  | zero =>
    intro t k0 d last hk _ hok
    cases t with
    | zero => omega
    | succ t =>
      rw [show k0 + 0 = k0 from rfl] at hok
      simp only [_retry_gs_aux, hok]
      rfl
  | succ k ih =>
    intro t k0 d last hk hfail hok
    cases t with
    | zero => omega
    | succ t =>
      obtain ⟨e, he⟩ := hfail 0 (Nat.succ_pos k)
      rw [show k0 + 0 = k0 from rfl] at he
      have hfail' : ∀ j, j < k → ∃ e, f (k0 + 1 + j) = GsOutcome.apiErr e := by
        intro j hj
        obtain ⟨e', he'⟩ := hfail (j + 1) (by omega)
        exact ⟨e', by rw [show k0 + 1 + j = k0 + (j + 1) by omega]; exact he'⟩
      have hok' : f (k0 + 1 + k) = GsOutcome.ok v := by
        rw [show k0 + 1 + k = k0 + (k + 1) by omega]
        exact hok
      rw [_retry_gs_aux_step f b t k0 d last e he,
        ih t (k0 + 1) (d * b) (some e) (by omega) hfail' hok']
      rfl

theorem _retry_gs_aux_allfail {ε α : Type} (f : Nat → GsOutcome ε α) (b : ℚ)
    (g : Nat → ε) :
    ∀ (t k0 : Nat) (d : ℚ) (last : Option ε), 0 < t →
      (∀ j, j < t → f (k0 + j) = GsOutcome.apiErr (g (k0 + j))) →
      _retry_gs_aux f b t k0 d last =
        ⟨Except.error (some (g (k0 + t - 1))), t, geoList d b t⟩ := by
  intro t
  induction t with
  | zero => intro k0 d last h; omega
  | succ t ih =>
    intro k0 d last _ hfail
    have h0 : f k0 = GsOutcome.apiErr (g k0) := by
      have := hfail 0 (Nat.succ_pos t)
      rwa [show k0 + 0 = k0 from rfl] at this
    cases t with
    | zero =>
      simp only [_retry_gs_aux, h0]
      rfl
    | succ t' =>
      have hfail' : ∀ j, j < t' + 1 →
          f (k0 + 1 + j) = GsOutcome.apiErr (g (k0 + 1 + j)) := by
        intro j hj
        have := hfail (j + 1) (by omega)
        rwa [show k0 + (j + 1) = k0 + 1 + j by omega] at this
      rw [_retry_gs_aux_step f b (t' + 1) k0 d last (g k0) h0,
        ih (k0 + 1) (d * b) (some (g k0)) (Nat.succ_pos t') hfail']
      have harg : k0 + 1 + (t' + 1) - 1 = k0 + (t' + 1 + 1) - 1 := by omega
      rw [harg]
      rfl

theorem _retry_gs_aux_sleeps_chain {ε α : Type} (f : Nat → GsOutcome ε α)
    (b : ℚ) :
    ∀ (t k0 : Nat) (d : ℚ) (last : Option ε),
      List.Chain' (fun x y => y = x * b) (_retry_gs_aux f b t k0 d last).sleeps ∧
      ∀ x, (_retry_gs_aux f b t k0 d last).sleeps.head? = some x → x = d := by
  intro t
  induction t with
  | zero =>
    intro k0 d last
    exact ⟨List.chain'_nil, fun x hx => by simp [_retry_gs_aux] at hx⟩
  | succ t ih =>
    intro k0 d last
    rw [_retry_gs_aux]
    cases hc : f k0 with
    | ok v => exact ⟨List.chain'_nil, fun x hx => by simp at hx⟩
    | apiErr e =>
      simp only
      constructor
      · refine List.chain'_cons'.mpr ⟨?_, (ih (k0 + 1) (d * b) (some e)).1⟩
        intro y hy
        exact (ih (k0 + 1) (d * b) (some e)).2 y hy
      · intro x hx
        simp only [List.head?_cons, Option.mem_def, Option.some.injEq] at hx
        exact hx.symm

/-- C7: `_retry_gs` implements bounded retry with backoff.  Calls are indexed
from 0, so the (k+1)-st attempt succeeding with k+1 <= tries means the value
is returned after exactly k+1 calls, having slept the geometric delays
d, d*backoff, ..., d*backoff^(k-1); if all tries attempts raise a transient
APIError, a RuntimeError carrying the last error is raised after exactly
tries calls; and the waiting delay is multiplied by the backoff factor after
each failed attempt (consecutive sleeps are in ratio backoff). -/
theorem retry_gs_spec {ε α : Type} (f : Nat → GsOutcome ε α) (tries : Nat)
    (delay backoff : ℚ) :
    (∀ (k : Nat) (v : α), k < tries →
      (∀ j, j < k → ∃ e, f j = GsOutcome.apiErr e) →
      f k = GsOutcome.ok v →
      (_retry_gs f tries delay backoff).result = Except.ok v ∧
        (_retry_gs f tries delay backoff).calls = k + 1 ∧
        (_retry_gs f tries delay backoff).sleeps = geoList delay backoff k) ∧
    (∀ g : Nat → ε, 0 < tries →
      (∀ j, j < tries → f j = GsOutcome.apiErr (g j)) →
      (_retry_gs f tries delay backoff).result =
          Except.error (some (g (tries - 1))) ∧
        (_retry_gs f tries delay backoff).calls = tries ∧
        (_retry_gs f tries delay backoff).sleeps = geoList delay backoff tries) ∧
    List.Chain' (fun x y => y = x * backoff)
      (_retry_gs f tries delay backoff).sleeps := by
  refine ⟨?_, ?_, ?_⟩
  · intro k v hk hfail hok
    have h := _retry_gs_aux_success f backoff v k tries 0 delay none hk
      (fun j hj => by rw [Nat.zero_add]; exact hfail j hj)
      (by rw [Nat.zero_add]; exact hok)
    unfold _retry_gs
    rw [h]
    exact ⟨rfl, rfl, rfl⟩
  · intro g htries hfail
    have h := _retry_gs_aux_allfail f backoff g tries 0 delay none htries
      (fun j hj => by rw [Nat.zero_add]; exact hfail j hj)
    unfold _retry_gs
    rw [h, Nat.zero_add]
    exact ⟨rfl, rfl, rfl⟩
  · exact (_retry_gs_aux_sleeps_chain f backoff tries 0 delay none).1

theorem retry_gs_spec_witness :
    (2 < 8 ∧ retryDemoCalls 2 = GsOutcome.ok ("done" : String)) ∧
      (_retry_gs retryDemoCalls 8 1 (8 / 5)).result =
          Except.ok ("done" : String) ∧
        (_retry_gs retryDemoCalls 8 1 (8 / 5)).calls = 3 ∧
        (_retry_gs retryDemoCalls 8 1 (8 / 5)).sleeps = geoList 1 (8 / 5) 2 :=
  ⟨⟨by omega, rfl⟩,
    (retry_gs_spec retryDemoCalls 8 1 (8 / 5)).1 2 ("done" : String) (by omega)
      (fun j hj => ⟨j, by simp [retryDemoCalls, hj]⟩) rfl⟩

/-! ## Theorems: admission interval builder (C8) -/

/-- C8: `_build_intervals_hours` returns an empty interval list and no
horizon whenever the admission or discharge timestamp is missing or the
discharge is earlier than the admission; otherwise the horizon is the
admission-to-discharge duration in hours and every returned interval
satisfies 0 <= start < end <= horizon. -/
theorem build_intervals_spec (admit_ts disch_ts edreg edout icuIn icuOut : Option ℚ) :
    ((admit_ts = none ∨ disch_ts = none ∨
        ∃ a d, admit_ts = some a ∧ disch_ts = some d ∧ d < a) →
      _build_intervals_hours admit_ts disch_ts edreg edout icuIn icuOut = ([], none)) ∧
    (∀ a d, admit_ts = some a → disch_ts = some d → a ≤ d →
      (_build_intervals_hours admit_ts disch_ts edreg edout icuIn icuOut).2 =
          some (d - a) ∧
        ∀ iv ∈ (_build_intervals_hours admit_ts disch_ts edreg edout icuIn icuOut).1,
          0 ≤ iv.2.1 ∧ iv.2.1 < iv.2.2 ∧ iv.2.2 ≤ d - a) := by
  constructor
  · intro h
    rcases h with h | h | ⟨a, d, ha, hd, hlt⟩
    · subst h
      rfl
    · subst h
      cases admit_ts <;> rfl
    · subst ha
      subst hd
      simp only [_build_intervals_hours, if_pos hlt]
  · intro a d ha hd hle
    subst ha
    subst hd
    have hnlt : ¬ d < a := not_lt.mpr hle
    constructor
    · simp only [_build_intervals_hours, if_neg hnlt]
    · intro iv hiv
      simp only [_build_intervals_hours, if_neg hnlt, List.mem_filterMap] at hiv
      obtain ⟨y, _, hclip⟩ := hiv
      unfold clipBand at hclip
      by_cases hse : max 0 y.2.1 < min (d - a) y.2.2
      · rw [if_pos hse] at hclip
        obtain rfl : (y.1, max 0 y.2.1, min (d - a) y.2.2) = iv :=
          Option.some.inj hclip
        refine ⟨le_max_left 0 y.2.1, hse, min_le_left (d - a) y.2.2⟩
      · rw [if_neg hse] at hclip
        exact absurd hclip (Option.noConfusion)

theorem build_intervals_spec_witness :
    ((0 : ℚ) ≤ 100) ∧
      ((_build_intervals_hours (some 0) (some 100) (some (-2)) (some 5)
            (some 10) none).2 = some (100 - 0) ∧
        ∀ iv ∈ (_build_intervals_hours (some 0) (some 100) (some (-2)) (some 5)
            (some 10) none).1,
          0 ≤ iv.2.1 ∧ iv.2.1 < iv.2.2 ∧ iv.2.2 ≤ 100 - 0) :=
  ⟨by decide,
    (build_intervals_spec (some 0) (some 100) (some (-2)) (some 5)
        (some 10) none).2 0 100 rfl rfl (by decide)⟩

/-! ## Theorems: strong-tag stripping (C9) -/

theorem dropSpaces_suffix (l : List Char) : (dropSpaces l).IsSuffix l :=
  List.dropWhile_suffix _

theorem eatLit_suffix : ∀ (p l r : List Char), eatLit p l = some r → r.IsSuffix l := by
  intro p
  induction p with
  | nil =>
    intro l r h
    obtain rfl := Option.some.inj h
    exact List.suffix_refl _
  | cons p ps ih =>
    intro l r h
    cases l with
    | nil => simp [eatLit] at h
    | cons c cs =>
      rw [eatLit] at h
      split_ifs at h with hc
      · exact (ih cs r h).trans (List.suffix_cons c cs)

theorem eatName_suffix (l r : List Char) (h : eatName l = some r) : r.IsSuffix l := by
  unfold eatName at h
  cases heq : eatLit (("strong" : String).toList) l with
  | some r2 =>
    rw [heq] at h
    obtain rfl := Option.some.inj h
    exact eatLit_suffix _ _ _ heq
  | none =>
    rw [heq] at h
    exact eatLit_suffix _ _ _ h

theorem matchClose_suffix (l r : List Char) (h : matchClose l = some r) :
    r.IsSuffix l := by
  cases l with
  | nil => simp [matchClose] at h
  | cons c rest =>
    rw [matchClose] at h
    split_ifs at h with hc
    cases heq1 : dropSpaces rest with
    | nil => rw [heq1] at h; simp at h
    | cons c2 r2 =>
      rw [heq1] at h
      simp only [] at h
      split_ifs at h with hc2
      cases heq2 : eatName (dropSpaces r2) with
      | none => rw [heq2] at h; simp at h
      | some r4 =>
        rw [heq2] at h
        simp only [] at h
        cases heq3 : dropSpaces r4 with
        | nil => rw [heq3] at h; simp at h
        | cons c3 r5 =>
          rw [heq3] at h
          simp only [] at h
          split_ifs at h with hc3
          obtain rfl := Option.some.inj h
          have s1 : r5.IsSuffix (c3 :: r5) := List.suffix_cons c3 r5
          have s2 : (c3 :: r5).IsSuffix r4 := by
            rw [← heq3]
            exact dropSpaces_suffix r4
          have s3 : r4.IsSuffix (dropSpaces r2) := eatName_suffix _ _ heq2
          have s4 : (dropSpaces r2).IsSuffix r2 := dropSpaces_suffix r2
          have s5 : r2.IsSuffix (c2 :: r2) := List.suffix_cons c2 r2
          have s6 : (c2 :: r2).IsSuffix rest := by
            rw [← heq1]
            exact dropSpaces_suffix rest
          have s7 : rest.IsSuffix (c :: rest) := List.suffix_cons c rest
          exact s1.trans (s2.trans (s3.trans (s4.trans (s5.trans (s6.trans s7)))))

theorem matchOpen_suffix (l r : List Char) (h : matchOpen l = some r) :
    r.IsSuffix l := by
  cases l with
  | nil => simp [matchOpen] at h
  | cons c rest =>
    rw [matchOpen] at h
    split_ifs at h with hc
    cases heqn : eatName (dropSpaces rest) with
    | none => rw [heqn] at h; simp at h
    | some r2 =>
      rw [heqn] at h
      simp only [] at h
      cases r2 with
      | nil => simp at h
      | cons c2 cs =>
        have hname : (c2 :: cs).IsSuffix rest :=
          ((eatName_suffix _ _ heqn).trans (dropSpaces_suffix rest))
        simp only [] at h
        split_ifs at h with h1 h2
        · obtain rfl := Option.some.inj h
          exact ((List.suffix_cons c2 cs).trans hname).trans
            (List.suffix_cons c rest)
        · cases heqd : (c2 :: cs).dropWhile (fun ch => ch ≠ '>') with
          | nil => rw [heqd] at h; simp at h
          | cons ch r5 =>
            rw [heqd] at h
            simp only [] at h
            obtain rfl := Option.some.inj h
            have t1 : r5.IsSuffix (ch :: r5) := List.suffix_cons ch r5
            have t2 : (ch :: r5).IsSuffix (c2 :: cs) := by
              rw [← heqd]
              exact List.dropWhile_suffix _
            exact (t1.trans (t2.trans hname)).trans (List.suffix_cons c rest)

theorem stripCloseGo_sublist : ∀ (fuel : Nat) (l : List Char),
    (stripCloseGo fuel l).Sublist l := by
  intro fuel
  induction fuel with
  | zero => intro l; cases l <;> exact List.Sublist.refl _
  | succ fuel ih =>
    intro l
    cases l with
    | nil => exact List.Sublist.refl _
    | cons c rest =>
      cases h : matchClose (c :: rest) with
      | some r =>
        simp only [stripCloseGo, h]
        exact (ih r).trans (matchClose_suffix _ _ h).sublist
      | none =>
        simp only [stripCloseGo, h]
        exact List.Sublist.cons₂ c (ih rest)

theorem stripOpenGo_sublist : ∀ (fuel : Nat) (l : List Char),
    (stripOpenGo fuel l).Sublist l := by
  intro fuel
  induction fuel with
  | zero => intro l; cases l <;> exact List.Sublist.refl _
  | succ fuel ih =>
    intro l
    cases l with
    | nil => exact List.Sublist.refl _
    | cons c rest =>
      cases h : matchOpen (c :: rest) with
      | some r =>
        simp only [stripOpenGo, h]
        exact (ih r).trans (matchOpen_suffix _ _ h).sublist
      | none =>
        simp only [stripOpenGo, h]
        exact List.Sublist.cons₂ c (ih rest)

theorem matchClose_none {c : Char} (rest : List Char) (hc : ¬ c = '<') :
    matchClose (c :: rest) = none := by
  rw [matchClose, if_neg hc]

theorem matchOpen_none {c : Char} (rest : List Char) (hc : ¬ c = '<') :
    matchOpen (c :: rest) = none := by
  rw [matchOpen, if_neg hc]

theorem stripCloseGo_id : ∀ (fuel : Nat) (l : List Char), '<' ∉ l →
    stripCloseGo fuel l = l := by
  intro fuel
  induction fuel with
  | zero => intro l _; cases l <;> rfl
  | succ fuel ih =>
    intro l hl
    cases l with
    | nil => rfl
    | cons c rest =>
      have hc : ¬ c = '<' := fun h => hl (h ▸ List.mem_cons_self c rest)
      simp only [stripCloseGo, matchClose_none rest hc]
      rw [ih rest (fun h => hl (List.mem_cons_of_mem c h))]

theorem stripOpenGo_id : ∀ (fuel : Nat) (l : List Char), '<' ∉ l →
    stripOpenGo fuel l = l := by
  intro fuel
  induction fuel with
  | zero => intro l _; cases l <;> rfl
  | succ fuel ih =>
    intro l hl
    cases l with
    | nil => rfl
    | cons c rest =>
      have hc : ¬ c = '<' := fun h => hl (h ▸ List.mem_cons_self c rest)
      simp only [stripOpenGo, matchOpen_none rest hc]
      rw [ih rest (fun h => hl (List.mem_cons_of_mem c h))]

/-- C9 counterexample: on the input below, the only strong/b tag present in
the original string is the closing tag, so removing all tags while leaving
every other character unchanged (the claim-side one-pass removal) would give
an angle-bracketed b; but the code's first pass removes the closing tag and
thereby creates a brand-new opening tag, which the second pass then removes,
so `_strip_strong_only` returns the empty string instead. -/
theorem strip_strong_only_cex :
    _strip_strong_only (some ("<b</strong>>")) = "" ∧
      stripTagsOnePass ("<b</strong>>") = "<b>" ∧
      ¬ _strip_strong_only (some ("<b</strong>>")) =
          stripTagsOnePass ("<b</strong>>") :=
  ⟨by decide, by decide, by decide⟩

/-- C9 (amended): for every string input, `_strip_strong_only` removes all
closing strong/b tags in a first pass and all opening strong/b tags (with
attributes and extra spaces, case-insensitively) in a second pass, scanning
left to right over non-overlapping matches; the output is always a
subsequence of the input, inputs containing no angle bracket are returned
unchanged (in particular characters outside any removed match survive each
pass), and mark tags survive while strong/b tags with attributes, spaces and
mixed case are removed -- but because the passes cascade, removing a closing
tag can expose a new opening tag, so characters that were not part of any
tag of the original string may also be deleted; for every non-string input
it returns the empty string. -/
theorem strip_strong_only_spec :
    _strip_strong_only none = "" ∧
      (∀ l : List Char, (stripStrongOnlyList l).Sublist l) ∧
      (∀ l : List Char, '<' ∉ l → stripStrongOnlyList l = l) ∧
      _strip_strong_only (some ("a <mark>x</mark> b")) = "a <mark>x</mark> b" ∧
      _strip_strong_only (some ("<STRONG foo=bar>x</b >y</ StRoNg >z<br>")) =
        "xyz<br>" ∧
      _strip_strong_only (some ("<b</strong>>")) = "" := by
  refine ⟨rfl, ?_, ?_, by decide, by decide, by decide⟩
  · intro l
    exact (stripOpenGo_sublist _ _).trans (stripCloseGo_sublist _ _)
  · intro l hl
    unfold stripStrongOnlyList
    rw [show stripClose l = l from stripCloseGo_id _ l hl]
    exact stripOpenGo_id _ l hl

theorem strip_strong_only_spec_witness :
    '<' ∉ (("no tags here" : String).toList) ∧
      stripStrongOnlyList (("no tags here" : String).toList) =
        ("no tags here" : String).toList :=
  ⟨by decide,
    strip_strong_only_spec.2.2.1 (("no tags here" : String).toList) (by decide)⟩

/-! ## Theorems: worksheet row append (C10) -/

/-- C10: `append_dict` appends exactly one row whose values appear in the
order of the effective header list (the given headers, or the worksheet's
header row when none are given), using the dictionary value for each header
present and the empty string for each absent header; dictionary keys not
named in the headers are silently dropped (two dictionaries agreeing on the
headers produce the same appended row). -/
theorem append_dict_spec (ws : Worksheet) (d : String → Option String)
    (headers : Option (List String)) :
    (append_dict ws d headers).rows =
      ws.rows ++ [(headers.getD (row_values ws 1)).map (fun h => (d h).getD "")] ∧
    ∀ d₂ : String → Option String,
      (∀ h ∈ headers.getD (row_values ws 1), d₂ h = d h) →
      append_dict ws d₂ headers = append_dict ws d headers := by
  constructor
  · cases headers <;> rfl
  · intro d₂ hagree
    unfold append_dict append_row
    have hmap : ∀ hs : List String, (∀ h ∈ hs, d₂ h = d h) →
        hs.map (fun h => (d₂ h).getD "") = hs.map (fun h => (d h).getD "") := by
      intro hs hh
      exact List.map_congr_left (fun h hmem => by rw [hh h hmem])
    cases headers with
    | none =>
      show Worksheet.mk
          (ws.rows ++ [(row_values ws 1).map (fun h => (d₂ h).getD "")]) =
        Worksheet.mk
          (ws.rows ++ [(row_values ws 1).map (fun h => (d h).getD "")])
      rw [hmap (row_values ws 1) hagree]
    | some hs =>
      show Worksheet.mk (ws.rows ++ [hs.map (fun h => (d₂ h).getD "")]) =
        Worksheet.mk (ws.rows ++ [hs.map (fun h => (d h).getD "")])
      rw [hmap hs hagree]

theorem append_dict_spec_witness :
    (∀ h ∈ (some demoHeaders).getD (row_values demoWs 1), demoDict2 h = demoDict h) ∧
      append_dict demoWs demoDict2 (some demoHeaders) =
        append_dict demoWs demoDict (some demoHeaders) :=
  ⟨by decide,
    (append_dict_spec demoWs demoDict (some demoHeaders)).2 demoDict2 (by decide)⟩
